import Mathlib

/-!
Shallow embedding of `lichess_main.py` (georgems98/lichess-player-summary).

The script has two pieces of logic:

* the importer `get_player_games`, which turns the list of raw game records
  returned by the Lichess API into a table with columns
  `winner, status, opening, variation, moves`, splitting the raw opening
  `name` on a colon and tokenizing the space-separated `moves` string; and
* the matcher `given_move_responses(df, moves, color=None, shuffle=True)`,
  which filters the table to the games whose moves start with one of the
  candidate sequences (the permutations of `moves` when `shuffle`, else
  `moves` itself), where the comparison window is taken at even ply indices
  for `color == "white"`, odd ply indices for `color == "black"`, and the
  raw prefix otherwise.

Python-level behaviours that the embedding reproduces faithfully:

* `games_df["opening"] = games_df.name.str.extract("(.*)\:")` uses a greedy
  `.*`, so the captured text runs up to the LAST colon of the name, while
  `games_df.name.str.extract("\:(.*)")` captures the text after the FIRST
  colon; a name without a colon yields null, and the null openings are then
  backfilled with the whole name.
* `pd.DataFrame([])` has no columns at all, so the column selection
  `games_df[["winner", "status", "name", "moves"]]` fails with a `KeyError`
  when the record list is empty; we model the importer as `Except`-valued.
* In `given_move_responses` the branch on `color == "black"` carries the
  `else`, but the branch on `color == "white"` does not (`if`/`if`/`else`,
  not `if`/`elif`/`else`): when `color == "white"` the `else` body runs as
  well.  With `shuffle == True` the candidates are an
  `itertools.permutations` iterator that the white loop has already
  exhausted, so the `else` loop then iterates over nothing; with
  `shuffle == False` the candidates are a list and the `else` loop runs over
  it again, so a raw-prefix match also sets the mask.
* The mask is an integer sum of booleans converted with `astype(bool)`, so a
  row is kept exactly when at least one comparison succeeded.
-/

namespace Lichess

/-- Python slice `x[start:stop:step]` for a step `≥ 1` and non-negative
bounds: the elements of `x` at indices `start`, `start + step`,
`start + 2*step`, …, below both `stop` and `len(x)`, in order. -/
def pySlice (start stop step : Nat) (xs : List α) : List α :=
  (xs.enum.filter
    (fun p => start ≤ p.1 && p.1 < stop && (p.1 - start) % step == 0)).map
    Prod.snd

/-- A raw game record after the dict merge `{**x, **x.pop("opening")}` of
`get_player_games`: the fields the script then selects.  `winner` is `none`
when the raw record has no winner key (draw / unfinished game); `name` is the
nested `opening.name` string; `moves` is the space-separated ply string. -/
structure RawRecord where
  winner : Option String
  status : String
  name : List Char
  moves : List Char
deriving Repr, DecidableEq

/-- A row of the table built by `get_player_games`, after the opening split
and the move tokenization. -/
structure Game where
  winner : Option String
  status : String
  opening : List Char
  variation : Option (List Char)
  moves : List String
deriving Repr, DecidableEq

/-- Text before the first occurrence of `c` (regex `(.*?)` before a
non-greedy match of `c`). -/
def beforeFirst (c : Char) (l : List Char) : List Char :=
  l.takeWhile (fun d => d ≠ c)

/-- Text after the first occurrence of `c`: the capture of the pandas
extraction `"\:(.*)"` (a regex search matches at the leftmost colon and the
greedy `(.*)` then captures the rest of the string). -/
def afterFirst (c : Char) (l : List Char) : List Char :=
  (l.dropWhile (fun d => d ≠ c)).drop 1

/-- Text before the last occurrence of `c`: the capture of the pandas
extraction `"(.*)\:"` (the greedy `(.*)` backtracks only to the rightmost
colon). -/
def beforeLast (c : Char) (l : List Char) : List Char :=
  ((l.reverse.dropWhile (fun d => d ≠ c)).drop 1).reverse

/-- Text after the last occurrence of `c`. -/
def afterLast (c : Char) (l : List Char) : List Char :=
  (l.reverse.takeWhile (fun d => d ≠ c)).reverse

/-- Python `str.split()`: split on whitespace and drop the empty chunks, so
runs of whitespace act as one separator and there are no empty tokens. -/
def splitWs (l : List Char) : List (List Char) :=
  (l.splitOnP Char.isWhitespace).filter (fun w => !w.isEmpty)

/-- One row of `get_player_games`: the opening split
(`games_df["opening"]`/`games_df["variation"]` extractions at lines 52-53,
plus the null backfill of `opening` from `name` at line 57) and the move
tokenization `games_df.moves.apply(lambda x: x.split())` at line 62. -/
def importRecord (x : RawRecord) : Game :=
  { winner := x.winner
    status := x.status
    opening := if ':' ∈ x.name then beforeLast ':' x.name else x.name
    variation := if ':' ∈ x.name then some (afterFirst ':' x.name) else none
    moves := (splitWs x.moves).map String.mk }

/-- Columns of `pd.DataFrame(list_of_dicts)`: the union of the dicts' keys.
Every merged record carries `status`, `moves` and (from the merged `opening`
dict) `name`; it carries a `winner` key only when the game has a winner. -/
def recordKeys (x : RawRecord) : List String :=
  (if x.winner.isSome then ["winner"] else []) ++ ["status", "moves", "name"]

/-- Columns of the frame built from a list of records. -/
def frameColumns (records : List RawRecord) : List String :=
  (records.flatMap recordKeys).dedup

/-- `get_player_games`, lines 43-64: build the frame from the merged
records, select the columns `["winner", "status", "name", "moves"]` (a
`KeyError` when one of them is absent — in particular the frame built from
an empty record list has no columns at all), then split the opening name and
tokenize the moves. -/
def get_player_games (records : List RawRecord) :
    Except String (List Game) :=
  if (["winner", "status", "name", "moves"].all
      (fun c => decide (c ∈ frameColumns records))) then
    Except.ok (records.map importRecord)
  else
    Except.error "KeyError: columns not in index"

/-- All ways of inserting `a` into a list: the building block of the
permutation enumeration below. -/
def insertEverywhere (a : α) : List α → List (List α)
  | [] => [[a]]
  | b :: bs => (a :: b :: bs) :: (insertEverywhere a bs).map (fun t => b :: t)

/-- `itertools.permutations`: all `n!` arrangements of the input (elements
treated as distinct by position, so duplicates are enumerated repeatedly —
exactly as in Python).  The enumeration order differs from `itertools`, but
`given_move_responses` only ever asks whether SOME candidate matches, so
only the underlying set of arrangements matters. -/
def permutations : List α → List (List α)
  | [] => [[]]
  | a :: as => (permutations as).flatMap (insertEverywhere a)

/-- The candidate move sequences of `given_move_responses`, lines 91-94:
all permutations of `moves` when `shuffle`, else the single list `moves`. -/
def candidate_list (moves : List String) (shuffle : Bool) :
    List (List String) :=
  if shuffle then permutations moves else [moves]

/-- Comparison window for `color == "white"`: the slice
`x[0 : 2*len(item) : 2]` of line 101. -/
def white_slice (xs : List String) (n : Nat) : List String :=
  pySlice 0 (2 * n) 2 xs

/-- Comparison window for `color == "black"`: the slice
`x[1 : 2*len(item)+1 : 2]` of line 104. -/
def black_slice (xs : List String) (n : Nat) : List String :=
  pySlice 1 (2 * n + 1) 2 xs

/-- Whether one row's mask entry ends up non-zero in
`given_move_responses`, lines 96-109.  The three loop groups mirror the
Python control flow: the `color == "white"` loop, the `color == "black"`
loop, and the `else` loop attached to the *black* test.  The `else` loop is
skipped only for `color == "black"`; for `color == "white"` it runs, but
when `shuffle` is set the candidates iterator was already exhausted by the
white loop, so it then contributes nothing. -/
def game_move_mask (moves : List String) (color : Option String)
    (shuffle : Bool) (xs : List String) : Bool :=
  ((if color = some "white" then
      (candidate_list moves shuffle).any
        (fun item => white_slice xs item.length == item)
    else false) ||
  (if color = some "black" then
      (candidate_list moves shuffle).any
        (fun item => black_slice xs item.length == item)
    else false) ||
  (if color = some "black" then false
    else if color = some "white" ∧ shuffle then false
    else (candidate_list moves shuffle).any
      (fun item => xs.take item.length == item)))

/-- `given_move_responses(df, moves, color, shuffle)`: the rows of `df`
whose mask entry is non-zero (`df[mask.astype(bool)]`). -/
def given_move_responses (df : List Game) (moves : List String)
    (color : Option String) (shuffle : Bool) : List Game :=
  df.filter (fun g => game_move_mask moves color shuffle g.moves)

/-- `Series.value_counts()`: one entry per distinct value of the series,
carrying its number of occurrences, sorted by descending count.  (pandas
leaves the relative order of equal counts unspecified; any descending
arrangement is a faithful model, the claims only constrain the counts and
the descending order.) -/
def count_in [DecidableEq α] (xs : List α) (v : α) : Nat :=
  xs.count v

def value_counts [DecidableEq α] (xs : List α) : List (α × Nat) :=
  List.insertionSort (fun a b => b.2 ≤ a.2)
    (xs.dedup.map (fun v => (v, count_in xs v)))

/-- Lines 130-133: the colour the player did not play. -/
def opposite_color (color : String) : String :=
  if color = "black" then "white" else "black"

/-- Line 138: `(games_df.winner == opposite_color) | (games_df.winner.isnull())`
for one row. -/
def not_win_mask (color : String) (g : Game) : Bool :=
  g.winner == some (opposite_color color) || g.winner == none

/-- Line 144: `games_df.opening.value_counts()`. -/
def opening_value_counts (df : List Game) : List (List Char × Nat) :=
  value_counts (df.map Game.opening)

/-- Line 147: `games_df[not_win_mask].status.value_counts()`. -/
def status_value_counts (df : List Game) (color : String) :
    List (String × Nat) :=
  value_counts ((df.filter (not_win_mask color)).map Game.status)

theorem perm_of_mem_insertEverywhere {a : α} {l y : List α}
    (h : y ∈ insertEverywhere a l) : y.Perm (a :: l) := by
  induction l generalizing y with
  | nil =>
    simp only [insertEverywhere, List.mem_singleton] at h
    subst h
    exact List.Perm.refl _
  | cons b bs ih =>
    simp only [insertEverywhere, List.mem_cons, List.mem_map] at h
    rcases h with rfl | ⟨t, ht, rfl⟩
    · exact List.Perm.refl _
    · exact ((ih ht).cons b).trans (List.Perm.swap a b bs)

theorem append_mem_insertEverywhere (a : α) :
    ∀ u v : List α, (u ++ a :: v) ∈ insertEverywhere a (u ++ v) := by
  intro u
  induction u with
  | nil => intro v; cases v <;> simp [insertEverywhere]
  | cons b bt ih =>
    intro v
    simp only [List.cons_append, insertEverywhere, List.mem_cons, List.mem_map]
    exact Or.inr ⟨bt ++ a :: v, ih v, rfl⟩

theorem mem_permutations {l y : List α} : y ∈ permutations l ↔ y.Perm l := by
  induction l generalizing y with
  | nil => simp [permutations, List.perm_nil]
  | cons a as ih =>
    simp only [permutations, List.mem_flatMap]
    constructor
    · rintro ⟨t, ht, hy⟩
      exact (perm_of_mem_insertEverywhere hy).trans ((ih.mp ht).cons a)
    · intro h
      have ha : a ∈ y := (h.mem_iff).mpr (List.mem_cons_self a as)
      obtain ⟨u, v, rfl⟩ := List.append_of_mem ha
      refine ⟨u ++ v, ih.mpr ?_, append_mem_insertEverywhere a u v⟩
      exact (List.perm_middle.symm.trans h).cons_inv

theorem any_congr_of_mem {l₁ l₂ : List α} (h : ∀ x, x ∈ l₁ ↔ x ∈ l₂)
    (f : α → Bool) : l₁.any f = l₂.any f := by
  rw [Bool.eq_iff_iff]
  simp only [List.any_eq_true]
  exact ⟨fun ⟨x, hx, hf⟩ => ⟨x, (h x).mp hx, hf⟩,
    fun ⟨x, hx, hf⟩ => ⟨x, (h x).mpr hx, hf⟩⟩

theorem pySlice_stop_le_start {start stop step : Nat} (xs : List α)
    (h : stop ≤ start) : pySlice start stop step xs = [] := by
  unfold pySlice
  rw [List.map_eq_nil_iff, List.filter_eq_nil_iff]
  rintro ⟨i, x⟩ _
  simp only [Bool.and_eq_true, decide_eq_true_eq, not_and]
  intro hs hi
  omega

theorem candidate_list_nil (shuffle : Bool) :
    candidate_list [] shuffle = [[]] := by
  cases shuffle <;> rfl

theorem game_move_mask_black (moves : List String) (shuffle : Bool)
    (xs : List String) :
    game_move_mask moves (some "black") shuffle xs =
      (candidate_list moves shuffle).any
        (fun item => black_slice xs item.length == item) := by
  simp [game_move_mask]

theorem game_move_mask_other {color : Option String}
    (hw : color ≠ some "white") (hb : color ≠ some "black")
    (moves : List String) (shuffle : Bool) (xs : List String) :
    game_move_mask moves color shuffle xs =
      (candidate_list moves shuffle).any
        (fun item => xs.take item.length == item) := by
  simp [game_move_mask, hw, hb]

theorem game_move_mask_white_shuffle (moves : List String)
    (xs : List String) :
    game_move_mask moves (some "white") true xs =
      (candidate_list moves true).any
        (fun item => white_slice xs item.length == item) := by
  simp [game_move_mask]

theorem game_move_mask_congr {p t : List String} (color : Option String)
    (shuffle : Bool) (xs : List String)
    (h : ∀ x, x ∈ candidate_list p shuffle ↔ x ∈ candidate_list t shuffle) :
    game_move_mask p color shuffle xs = game_move_mask t color shuffle xs := by
  unfold game_move_mask
  rw [any_congr_of_mem h, any_congr_of_mem h, any_congr_of_mem h]

theorem mem_value_counts [DecidableEq α] {xs : List α} {p : α × Nat}
    (h : p ∈ value_counts xs) : p.1 ∈ xs ∧ p.2 = count_in xs p.1 := by
  unfold value_counts at h
  rw [(List.perm_insertionSort _ _).mem_iff] at h
  simp only [List.mem_map, List.mem_dedup] at h
  obtain ⟨v, hv, hp⟩ := h
  subst hp
  exact ⟨hv, rfl⟩

theorem count_mem_value_counts [DecidableEq α] {xs : List α} {v : α}
    (h : v ∈ xs) : (v, count_in xs v) ∈ value_counts xs := by
  unfold value_counts
  rw [(List.perm_insertionSort _ _).mem_iff]
  simp only [List.mem_map, List.mem_dedup]
  exact ⟨v, h, rfl⟩

theorem value_counts_keys_nodup [DecidableEq α] (xs : List α) :
    ((value_counts xs).map Prod.fst).Nodup := by
  unfold value_counts
  have hperm :=
    (List.perm_insertionSort (fun a b : α × Nat => b.2 ≤ a.2)
      (xs.dedup.map (fun v => (v, count_in xs v)))).map Prod.fst
  refine hperm.symm.nodup ?_
  have hcomp : Prod.fst ∘ (fun v : α => (v, count_in xs v)) = id := rfl
  rw [List.map_map, hcomp, List.map_id]
  exact List.nodup_dedup xs

theorem value_counts_sorted [DecidableEq α] (xs : List α) :
    (value_counts xs).Sorted (fun a b => b.2 ≤ a.2) := by
  unfold value_counts
  haveI htot : IsTotal (α × Nat) (fun a b => b.2 ≤ a.2) :=
    ⟨fun a b => Nat.le_total b.2 a.2⟩
  haveI htr : IsTrans (α × Nat) (fun a b => b.2 ≤ a.2) :=
    ⟨fun _ _ _ hab hbc => Nat.le_trans hbc hab⟩
  exact List.sorted_insertionSort _ _

theorem beforeFirst_append_afterFirst {c : Char} :
    ∀ {l : List Char}, c ∈ l →
      beforeFirst c l ++ c :: afterFirst c l = l := by
  intro l
  induction l with
  | nil => intro h; cases h
  | cons a t ih =>
    intro h
    by_cases hac : a = c
    · subst hac
      simp [beforeFirst, afterFirst, List.takeWhile_cons, List.dropWhile_cons]
    · have hct : c ∈ t := by
        rcases List.mem_cons.mp h with h1 | h1
        · exact absurd h1.symm hac
        · exact h1
      have ih2 := ih hct
      simp only [beforeFirst, afterFirst] at ih2 ⊢
      rw [List.takeWhile_cons, List.dropWhile_cons]
      simp [hac]
      simpa using ih2

theorem dropWhile_append_not_mem {c : Char} :
    ∀ {u : List Char}, c ∉ u → ∀ v : List Char,
      (u ++ c :: v).dropWhile (fun d => d ≠ c) = c :: v := by
  intro u
  induction u with
  | nil => intro _ v; simp [List.dropWhile_cons]
  | cons x ut ih =>
    intro h v
    have hx : x ≠ c := fun hxc => h (hxc ▸ List.mem_cons_self x ut)
    have hu : c ∉ ut := fun hc => h (List.mem_cons_of_mem x hc)
    simp only [List.cons_append, List.dropWhile_cons]
    simpa [hx] using ih hu v

theorem beforeLast_append_afterLast {c : Char} {l : List Char} (h : c ∈ l) :
    beforeLast c l ++ c :: afterLast c l = l := by
  have hrev : c ∈ l.reverse := List.mem_reverse.mpr h
  have hdec := beforeFirst_append_afterFirst hrev
  have := congrArg List.reverse hdec
  simp only [List.reverse_append, List.reverse_cons, List.reverse_reverse]
    at this
  calc beforeLast c l ++ c :: afterLast c l
      = (afterFirst c l.reverse).reverse ++
        ([c] ++ (beforeFirst c l.reverse).reverse) := by
        simp [beforeLast, afterLast, afterFirst, beforeFirst]
    _ = ((afterFirst c l.reverse).reverse ++ [c]) ++
        (beforeFirst c l.reverse).reverse := by rw [List.append_assoc]
    _ = l := by
        have h2 : (c :: afterFirst c l.reverse).reverse ++
            (beforeFirst c l.reverse).reverse = l := by
          simpa [List.reverse_append] using this
        simpa [List.reverse_cons] using h2

theorem not_mem_beforeFirst (c : Char) (l : List Char) :
    c ∉ beforeFirst c l := by
  intro h
  have := List.mem_takeWhile_imp h
  simp at this

theorem beforeLast_eq_beforeFirst_of_count_one {c : Char} {l : List Char}
    (h : l.count c = 1) : beforeLast c l = beforeFirst c l := by
  have hc : c ∈ l := by
    rw [← List.count_pos_iff]
    omega
  have hdec := beforeFirst_append_afterFirst hc
  have hbf : c ∉ beforeFirst c l := not_mem_beforeFirst c l
  have haf : c ∉ afterFirst c l := by
    intro hmem
    have hcount : l.count c =
        (beforeFirst c l).count c + ((c :: afterFirst c l).count c) := by
      rw [← List.count_append, hdec]
    rw [List.count_cons_self] at hcount
    have h1 : (beforeFirst c l).count c = 0 := List.count_eq_zero.mpr hbf
    have h2 : 0 < (afterFirst c l).count c := List.count_pos_iff.mpr hmem
    omega
  have hrev : l.reverse = (afterFirst c l).reverse ++
      c :: (beforeFirst c l).reverse := by
    conv_lhs => rw [← hdec]
    simp [List.reverse_append]
  have hnrev : c ∉ (afterFirst c l).reverse := by
    simpa [List.mem_reverse] using haf
  unfold beforeLast
  rw [hrev, dropWhile_append_not_mem hnrev]
  simp

/-- C1: the claim says that with `color = "white"` a game is kept if and
only if a candidate equals its even-position window, for EVERY permutation
setting, and that a game matching only on the interleaved prefix is
excluded.  The code breaks this when `allow_permutations` is false: the
`else` branch is attached to the `color == "black"` test, so for white it
runs too and a raw-prefix match keeps the game.  Here the only candidate is
`["a", "b"]`, the even-position window is `["a", "c"]` (no match), and the
game is nevertheless returned because its first two plies are `["a", "b"]`. -/
theorem white_else_branch_leak :
    given_move_responses [⟨none, "mate", [], none, ["a", "b", "c", "d"]⟩]
        ["a", "b"] (some "white") false =
        [⟨none, "mate", [], none, ["a", "b", "c", "d"]⟩] ∧
      candidate_list ["a", "b"] false = [["a", "b"]] ∧
      white_slice ["a", "b", "c", "d"] 2 = ["a", "c"] ∧
      (["a", "b", "c", "d"] : List String).take 2 = ["a", "b"] := by
  decide

/-- C2 counterexample: for the raw name `"A:B:C"` the importer sets
`opening` to `"A:B"` — the text before the LAST colon, not before the first
colon as the claim states — while `variation` is `"B:C"`, the text after
the first colon. -/
theorem opening_split_uses_last_colon :
    (importRecord ⟨some "white", "mate", ("A:B:C").toList, []⟩).opening =
        ("A:B").toList ∧
      (importRecord ⟨some "white", "mate", ("A:B:C").toList, []⟩).opening ≠
        ("A").toList ∧
      (importRecord ⟨some "white", "mate", ("A:B:C").toList, []⟩).variation =
        some (("B:C").toList) := by
  decide

/-- C2 amended: for a raw name containing a colon, `opening` is the text
before the LAST colon and `variation` the text after the FIRST colon; the
text before the first colon together with `variation` partitions the name
around the first colon, `opening` together with the text after the last
colon partitions it around the last colon, and when the name contains
exactly one colon `opening` is the text before that (first) colon, so
`opening` and `variation` then partition the name as the claim states. -/
theorem opening_split_amended (x : RawRecord) (h : ':' ∈ x.name) :
    (importRecord x).opening = beforeLast ':' x.name ∧
      (importRecord x).variation = some (afterFirst ':' x.name) ∧
      beforeFirst ':' x.name ++ ':' :: afterFirst ':' x.name = x.name ∧
      beforeLast ':' x.name ++ ':' :: afterLast ':' x.name = x.name ∧
      (x.name.count ':' = 1 →
        (importRecord x).opening = beforeFirst ':' x.name) := by
  refine ⟨?_, ?_, beforeFirst_append_afterFirst h,
    beforeLast_append_afterLast h, ?_⟩
  · simp [importRecord, h]
  · simp [importRecord, h]
  · intro h1
    simp [importRecord, h, beforeLast_eq_beforeFirst_of_count_one h1]

theorem opening_split_amended_witness :
    (importRecord ⟨some "white", "mate",
        ("Sicilian Defense: Najdorf Variation").toList, []⟩).opening =
      beforeLast ':' (("Sicilian Defense: Najdorf Variation").toList) ∧
      (importRecord ⟨some "white", "mate",
          ("Sicilian Defense: Najdorf Variation").toList, []⟩).variation =
        some (afterFirst ':' (("Sicilian Defense: Najdorf Variation").toList)) ∧
      beforeFirst ':' (("Sicilian Defense: Najdorf Variation").toList) ++
          ':' :: afterFirst ':' (("Sicilian Defense: Najdorf Variation").toList) =
        ("Sicilian Defense: Najdorf Variation").toList ∧
      beforeLast ':' (("Sicilian Defense: Najdorf Variation").toList) ++
          ':' :: afterLast ':' (("Sicilian Defense: Najdorf Variation").toList) =
        ("Sicilian Defense: Najdorf Variation").toList ∧
      ((("Sicilian Defense: Najdorf Variation").toList).count ':' = 1 →
        (importRecord ⟨some "white", "mate",
            ("Sicilian Defense: Najdorf Variation").toList, []⟩).opening =
          beforeFirst ':' (("Sicilian Defense: Najdorf Variation").toList)) :=
  opening_split_amended
    ⟨some "white", "mate",
      ("Sicilian Defense: Najdorf Variation").toList, []⟩ (by decide)

/-- C3: the claim says an empty record list yields an empty table without
an error.  In the code `pd.DataFrame([])` has no columns, so the selection
`games_df[["winner", "status", "name", "moves"]]` raises a `KeyError`: the
importer fails on empty input instead of returning an empty table. -/
theorem get_player_games_empty_errors :
    get_player_games [] = Except.error "KeyError: columns not in index" :=
  rfl

/-- C4: a raw record whose opening name has no colon gets the whole name as
`opening` and no `variation` (not an empty string — the field is absent). -/
theorem no_colon_whole_name (x : RawRecord) (h : ':' ∉ x.name) :
    (importRecord x).opening = x.name ∧
      (importRecord x).variation = none := by
  simp [importRecord, h]

theorem no_colon_whole_name_witness :
    (importRecord ⟨none, "draw",
        ("English Opening").toList, []⟩).opening =
      ("English Opening").toList ∧
      (importRecord ⟨none, "draw",
          ("English Opening").toList, []⟩).variation = none :=
  no_colon_whole_name ⟨none, "draw", ("English Opening").toList, []⟩
    (by decide)

/-- C5: with `color = "black"` a game is kept if and only if some candidate
equals its plies at odd positions 1, 3, 5, … taken for the candidate's
length (the `else` branch is skipped for black, in both permutation modes);
in particular the single game `["e4", "e5"]` is returned for the target
`["e5"]` with no permutations. -/
theorem black_window_match_iff :
    (∀ (df : List Game) (moves : List String) (shuffle : Bool) (g : Game),
        g ∈ given_move_responses df moves (some "black") shuffle ↔
          g ∈ df ∧ ∃ item ∈ candidate_list moves shuffle,
            black_slice g.moves item.length = item) ∧
      given_move_responses [⟨none, "mate", [], none, ["e4", "e5"]⟩] ["e5"]
        (some "black") false = [⟨none, "mate", [], none, ["e4", "e5"]⟩] := by
  constructor
  · intro df moves shuffle g
    simp [given_move_responses, List.mem_filter, game_move_mask_black,
      List.any_eq_true]
  · decide

/-- C6: the claim says a game with fewer total plies than the comparison
window needs is NEVER kept, for every color option.  The code breaks this
for `color = "white"` with permutations off: the unguarded `else` branch
also compares the raw prefix.  Here the target has length 2, the white
window needs `2*2 - 1 = 3` plies, the game has only 2 — its window
`["e4"]` is too short to equal any candidate — yet the game is returned
because its raw 2-ply prefix equals the target. -/
theorem short_game_white_leak :
    given_move_responses [⟨none, "mate", [], none, ["e4", "e5"]⟩]
        ["e4", "e5"] (some "white") false =
        [⟨none, "mate", [], none, ["e4", "e5"]⟩] ∧
      white_slice ["e4", "e5"] 2 = ["e4"] ∧
      (["e4", "e5"] : List String).length < 2 * 2 - 1 := by
  decide

/-- C7: with permutations on, the result is invariant under permuting the
target sequence — the candidate set is the set of permutations of the
target, which only depends on the target up to permutation (and for
`color = "white"` the `else` loop runs over the already-exhausted iterator,
so it never contributes); in particular a game whose relevant window is
`["b", "a"]` is matched by the target `["a", "b"]`. -/
theorem shuffle_perm_invariant :
    (∀ (df : List Game) (color : Option String) (t p : List String),
        p.Perm t → given_move_responses df p color true =
          given_move_responses df t color true) ∧
      given_move_responses [⟨none, "mate", [], none, ["b", "a"]⟩]
        ["a", "b"] none true = [⟨none, "mate", [], none, ["b", "a"]⟩] := by
  constructor
  · intro df color t p hp
    unfold given_move_responses
    refine List.filter_congr (fun g _ => ?_)
    refine game_move_mask_congr color true g.moves (fun x => ?_)
    have hc : ∀ m : List String, candidate_list m true = permutations m :=
      fun m => rfl
    rw [hc, hc, mem_permutations, mem_permutations]
    exact ⟨fun h => h.trans hp, fun h => h.trans hp.symm⟩
  · decide

theorem shuffle_perm_invariant_witness :
    given_move_responses [⟨none, "mate", [], none, ["b", "a"]⟩]
        ["b", "a"] none true =
      given_move_responses [⟨none, "mate", [], none, ["b", "a"]⟩]
        ["a", "b"] none true :=
  shuffle_perm_invariant.1 _ none ["a", "b"] ["b", "a"] (by decide)

/-- C8: both frequency reports map each distinct value of the relevant
column (openings over all games; ending statuses over the games whose
winner is the opposite colour or absent) to its occurrence count, with no
value repeated, in descending order of count. -/
theorem frequency_reports_desc (df : List Game) (color : String) :
    ((∀ p ∈ opening_value_counts df,
        p.1 ∈ df.map Game.opening ∧
          p.2 = count_in (df.map Game.opening) p.1) ∧
      (∀ v ∈ df.map Game.opening,
        (v, count_in (df.map Game.opening) v) ∈ opening_value_counts df) ∧
      ((opening_value_counts df).map Prod.fst).Nodup ∧
      (opening_value_counts df).Sorted (fun a b => b.2 ≤ a.2)) ∧
    ((∀ p ∈ status_value_counts df color,
        p.1 ∈ (df.filter (not_win_mask color)).map Game.status ∧
          p.2 = count_in ((df.filter (not_win_mask color)).map Game.status) p.1) ∧
      (∀ v ∈ (df.filter (not_win_mask color)).map Game.status,
        (v, count_in ((df.filter (not_win_mask color)).map Game.status) v) ∈
          status_value_counts df color) ∧
      ((status_value_counts df color).map Prod.fst).Nodup ∧
      (status_value_counts df color).Sorted (fun a b => b.2 ≤ a.2)) := by
  refine ⟨⟨?_, ?_, ?_, ?_⟩, ?_, ?_, ?_, ?_⟩
  · exact fun p hp => mem_value_counts hp
  · exact fun v hv => count_mem_value_counts hv
  · exact value_counts_keys_nodup _
  · exact value_counts_sorted _
  · exact fun p hp => mem_value_counts hp
  · exact fun v hv => count_mem_value_counts hv
  · exact value_counts_keys_nodup _
  · exact value_counts_sorted _

/-- C9: an empty target sequence makes every game match, for every color
option and permutation setting: the single empty candidate equals the empty
comparison window of every game, so nothing is filtered out. -/
theorem empty_target_matches_all (df : List Game) (color : Option String)
    (shuffle : Bool) : given_move_responses df [] color shuffle = df := by
  unfold given_move_responses
  rw [List.filter_eq_self]
  intro g _
  simp only [game_move_mask, candidate_list_nil, List.any_cons,
    List.any_nil, List.length_nil, List.take_zero]
  simp [white_slice, black_slice, pySlice_stop_le_start]
  tauto

/-- C10: a color argument that is neither exactly `"white"` nor exactly
`"black"` (for example `"White"`, or no color at all) falls through to the
`else` branch alone: the result is the same as with no color, and a game is
kept exactly when some candidate equals the first `len(item)` plies of its
interleaved move sequence. -/
theorem unrecognized_color_prefix_match (df : List Game)
    (moves : List String) (shuffle : Bool) (color : Option String)
    (hw : color ≠ some "white") (hb : color ≠ some "black") :
    given_move_responses df moves color shuffle =
        given_move_responses df moves none shuffle ∧
      given_move_responses df moves color shuffle = df.filter
        (fun g => (candidate_list moves shuffle).any
          (fun item => g.moves.take item.length == item)) := by
  have hmask : ∀ xs, game_move_mask moves color shuffle xs =
      (candidate_list moves shuffle).any
        (fun item => xs.take item.length == item) :=
    fun xs => game_move_mask_other hw hb moves shuffle xs
  have hnone : ∀ xs, game_move_mask moves none shuffle xs =
      (candidate_list moves shuffle).any
        (fun item => xs.take item.length == item) :=
    fun xs => game_move_mask_other (by simp) (by simp) moves shuffle xs
  constructor
  · unfold given_move_responses
    exact List.filter_congr (fun g _ => by rw [hmask, hnone])
  · unfold given_move_responses
    exact List.filter_congr (fun g _ => by rw [hmask])

theorem unrecognized_color_prefix_match_witness :
    given_move_responses [⟨none, "mate", [], none, ["e4", "e5"]⟩]
          ["e4"] (some "White") false =
        given_move_responses [⟨none, "mate", [], none, ["e4", "e5"]⟩]
          ["e4"] none false ∧
      given_move_responses [⟨none, "mate", [], none, ["e4", "e5"]⟩]
          ["e4"] (some "White") false =
        [⟨none, "mate", [], none, ["e4", "e5"]⟩].filter
          (fun g => (candidate_list ["e4"] false).any
            (fun item => g.moves.take item.length == item)) :=
  unrecognized_color_prefix_match
    [⟨none, "mate", [], none, ["e4", "e5"]⟩] ["e4"] false (some "White")
    (by decide) (by decide)

end Lichess
